import Mathlib

/-!
Verification of the response normalization and weighted aggregation engine of
the air-quality dashboard backend (backend/app.py).

The deserialized JSON values that the backend manipulates are modelled by the
inductive type PyVal.  Python floats are modelled exactly: a float is either a
rational number or one of the special values inf, -inf, nan; rational
arithmetic stands in for IEEE double arithmetic, so the numeric statements
below describe the computation with exact real arithmetic.  Python integers
are unbounded and are modelled by Int.  Exceptions are modelled by the Except
monad: a raised exception is an error value.

Python dictionaries are modelled as ordered association lists, with update in
place and insertion at the end for fresh keys, as CPython dictionaries behave.
Key lookup uses structural equality on scalar values; keys that are lists or
dictionaries are unhashable and can never be stored, so they are never equal
to a stored key.  Cross-type numeric key equality of Python (1 == 1.0) is not
modelled; all object keys produced by JSON deserialization are strings, so
this does not affect the payloads in scope.
-/

/-- A Python float: a finite rational value or one of inf, -inf, nan. -/
inductive PFloat where
  | finite (q : ℚ)
  | inf
  | ninf
  | nan
deriving DecidableEq

/-- The Python exceptions that the modelled code can raise. -/
inductive PyErr where
  | attributeError
  | typeError
  | valueError
  | overflowError
  | zeroDivisionError
deriving DecidableEq

/-- A deserialized JSON value as a Python object. -/
inductive PyVal where
  | none
  | bool (b : Bool)
  | int (n : ℤ)
  | float (f : PFloat)
  | str (s : String)
  | list (xs : List PyVal)
  | dict (kvs : List (PyVal × PyVal))

/-- Equality used for dictionary key lookup.  Stored keys are always hashable
scalars, on which Python equality is structural; containers are unhashable and
never stored, so they compare unequal to everything here. -/
def pyKeyEq : PyVal → PyVal → Bool
  | .none, .none => true
  | .bool a, .bool b => a == b
  | .int a, .int b => a == b
  | .float a, .float b => a == b
  | .str a, .str b => a == b
  | _, _ => false

/-- Lookup in an ordered association list modelling a Python dictionary. -/
def lookupVal : List (PyVal × PyVal) → PyVal → Option PyVal
  | [], _ => Option.none
  | (k, v) :: rest, key => if pyKeyEq k key then some v else lookupVal rest key

/-- Membership test for a dictionary key, Python `key in d`. -/
def containsKey (kvs : List (PyVal × PyVal)) (key : PyVal) : Bool :=
  (lookupVal kvs key).isSome

/-- A value is hashable, hence usable as a dictionary key, exactly when it is
not a list and not a dictionary. -/
def hashable : PyVal → Bool
  | .list _ => false
  | .dict _ => false
  | _ => true

/-- Store a key/value pair in an association list: replace the value in place
when an equal key is present, append the pair otherwise, as a CPython
dictionary assignment does. -/
def storeKV {β : Type} : List (PyVal × β) → PyVal → β → List (PyVal × β)
  | [], k, v => [(k, v)]
  | (k1, v1) :: rest, k, v =>
    if pyKeyEq k1 k then (k1, v) :: rest else (k1, v1) :: storeKV rest k v

/-- Python dictionary assignment `d[k] = v`: raises TypeError on an unhashable
key, otherwise stores the pair. -/
def setItem {β : Type} (kvs : List (PyVal × β)) (k : PyVal) (v : β) :
    Except PyErr (List (PyVal × β)) :=
  if hashable k then .ok (storeKV kvs k v) else .error .typeError

/-- Truthiness of a Python float: zero is falsy, every other float including
nan and the infinities is truthy. -/
def pfTruthy : PFloat → Bool
  | .finite q => decide (q ≠ 0)
  | _ => true

/-- Python truthiness of a value. -/
def truthy : PyVal → Bool
  | .none => false
  | .bool b => b
  | .int n => decide (n ≠ 0)
  | .float f => pfTruthy f
  | .str s => decide (s ≠ "")
  | .list [] => false
  | .list (_ :: _) => true
  | .dict [] => false
  | .dict (_ :: _) => true

/-- Numeric value of a list of decimal digit characters, most significant
digit first. -/
def digitsVal (cs : List Char) : ℕ :=
  cs.foldl (fun acc c => 10 * acc + (c.toNat - 48)) 0

/-- Split a character list at the first exponent marker e or E. -/
def splitExp : List Char → List Char × Option (List Char)
  | [] => ([], Option.none)
  | c :: rest =>
    if c = 'e' ∨ c = 'E' then ([], some rest)
    else
      let p := splitExp rest
      (c :: p.1, p.2)

/-- Consume an optional leading sign, returning the sign and the remainder. -/
def parseSign : List Char → ℤ × List Char
  | '+' :: rest => (1, rest)
  | '-' :: rest => (-1, rest)
  | cs => (1, cs)

/-- Parse an exponent: optional sign followed by at least one digit. -/
def parseExpVal (cs : List Char) : Option ℤ :=
  let p := parseSign cs
  if p.2 ≠ [] ∧ p.2.all Char.isDigit then some (p.1 * digitsVal p.2)
  else Option.none

/-- Parse an unsigned decimal mantissa: digits with an optional fractional
part, at least one digit in total. -/
def parseMantissa (cs : List Char) : Option ℚ :=
  let ip := cs.takeWhile Char.isDigit
  let rest := cs.dropWhile Char.isDigit
  match rest with
  | [] => if ip = [] then Option.none else some (digitsVal ip : ℚ)
  | '.' :: fp =>
    if fp.all Char.isDigit ∧ (ip ≠ [] ∨ fp ≠ []) then
      some ((digitsVal ip : ℚ) + (digitsVal fp : ℚ) / (10 : ℚ) ^ fp.length)
    else Option.none
  | _ => Option.none

/-- Model of the CPython float constructor on strings: optional surrounding
whitespace, optional sign, then inf, infinity, nan or a decimal literal with
optional fractional part and exponent.  Digit-group underscores are not
modelled. -/
def parseFloatLit (s : String) : Option PFloat :=
  let cs := s.trim.toList
  let p := parseSign cs
  let low := p.2.map Char.toLower
  if low = "inf".toList ∨ low = "infinity".toList then
    some (if p.1 = 1 then PFloat.inf else PFloat.ninf)
  else if low = "nan".toList then some PFloat.nan
  else
    let me := splitExp p.2
    match parseMantissa me.1 with
    | Option.none => Option.none
    | some m =>
      match me.2 with
      | Option.none => some (PFloat.finite (p.1 * m))
      | some ecs =>
        match parseExpVal ecs with
        | Option.none => Option.none
        | some e => some (PFloat.finite (p.1 * m * (10 : ℚ) ^ e))

/-- Model of the CPython int constructor on strings: optional whitespace and
sign, then at least one decimal digit. -/
def parseIntLit (s : String) : Option ℤ :=
  let cs := s.trim.toList
  let p := parseSign cs
  if p.2 ≠ [] ∧ p.2.all Char.isDigit then some (p.1 * digitsVal p.2)
  else Option.none

/-- Truncation of a rational toward zero, the behaviour of the Python int
constructor on floats. -/
def truncQ (q : ℚ) : ℤ := if 0 ≤ q then ⌊q⌋ else ⌈q⌉

/-- Model of the Python int constructor, as applied to sample sizes. -/
def pyInt : PyVal → Except PyErr ℤ
  | .bool b => .ok (if b then 1 else 0)
  | .int n => .ok n
  | .float (.finite q) => .ok (truncQ q)
  | .float .inf => .error .overflowError
  | .float .ninf => .error .overflowError
  | .float .nan => .error .valueError
  | .str s =>
    match parseIntLit s with
    | some n => .ok n
    | Option.none => .error .valueError
  | _ => .error .typeError

/-- Model of the Python float constructor: bools and ints convert exactly,
floats pass through, strings are parsed, everything else raises. -/
def pyFloat : PyVal → Except PyErr PFloat
  | .bool b => .ok (.finite (if b then 1 else 0))
  | .int n => .ok (.finite n)
  | .float f => .ok f
  | .str s =>
    match parseFloatLit s with
    | some f => .ok f
    | Option.none => .error .valueError
  | _ => .error .typeError

/-- Embedding of app.py _safe_float: None gives None, a failed float
conversion gives None, otherwise the converted float. -/
def _safe_float (v : PyVal) : Option PFloat :=
  match v with
  | .none => Option.none
  | v => (pyFloat v).toOption

/-- Python float addition on the extended value space. -/
def pfAdd : PFloat → PFloat → PFloat
  | .nan, _ => .nan
  | _, .nan => .nan
  | .finite a, .finite b => .finite (a + b)
  | .finite _, .inf => .inf
  | .finite _, .ninf => .ninf
  | .inf, .finite _ => .inf
  | .ninf, .finite _ => .ninf
  | .inf, .inf => .inf
  | .ninf, .ninf => .ninf
  | .inf, .ninf => .nan
  | .ninf, .inf => .nan

/-- Python multiplication of a float by an integer. -/
def pfMulInt : PFloat → ℤ → PFloat
  | .finite q, n => .finite (q * n)
  | .nan, _ => .nan
  | .inf, n => if 0 < n then .inf else if n < 0 then .ninf else .nan
  | .ninf, n => if 0 < n then .ninf else if n < 0 then .inf else .nan

/-- Python division of a float by an integer, raising on a zero divisor. -/
def pfDivInt (f : PFloat) (n : ℤ) : Except PyErr PFloat :=
  if n = 0 then .error .zeroDivisionError
  else
    match f with
    | .finite q => .ok (.finite (q / (n : ℚ)))
    | .nan => .ok .nan
    | .inf => .ok (if 0 < n then .inf else .ninf)
    | .ninf => .ok (if 0 < n then .ninf else .inf)

/-- Division of a float by a nonzero integer as a pure value. -/
def pfDivIntPure (f : PFloat) (n : ℤ) : PFloat :=
  match f with
  | .finite q => .finite (q / (n : ℚ))
  | .nan => .nan
  | .inf => if 0 < n then .inf else .ninf
  | .ninf => if 0 < n then .ninf else .inf

/-- Rounding of a rational to the nearest integer with ties to the even
integer, the rounding used by the Python round builtin. -/
def roundHalfEven (q : ℚ) : ℤ :=
  if q - ⌊q⌋ < 1 / 2 then ⌊q⌋
  else if 1 / 2 < q - ⌊q⌋ then ⌊q⌋ + 1
  else if ⌊q⌋ % 2 = 0 then ⌊q⌋ else ⌊q⌋ + 1

/-- Rounding of a rational to the nearest integer with ties away from zero,
stated here only to compare against the implemented rounding mode. -/
def roundHalfAway (q : ℚ) : ℤ :=
  if 0 ≤ q then ⌊q + 1 / 2⌋ else ⌈q - 1 / 2⌉

/-- The Python expression round(x, 6) on a float: finite values are rounded
to six decimal fractional digits with ties to even, special values pass
through. -/
def pyRound6 : PFloat → PFloat
  | .finite q => .finite ((roundHalfEven (q * 1000000) : ℚ) / 1000000)
  | .inf => .inf
  | .ninf => .ninf
  | .nan => .nan

/-- The Python method call v.get(key, default): dictionaries look the key up,
every other receiver raises AttributeError. -/
def pyGet (v : PyVal) (key deflt : PyVal) : Except PyErr PyVal :=
  match v with
  | .dict kvs => .ok ((lookupVal kvs key).getD deflt)
  | _ => .error .attributeError

/-- The loop of compute_weighted_average in app.py.  The accumulators are the
weighted sum, the total sample count and the number of valid days considered;
the loop breaks once seven days have been considered, skips a day whose
sample size is falsy after the `or 0` default or whose average does not
convert, and otherwise accumulates average times sample size. -/
def walk : List PyVal → PFloat → ℤ → ℕ → Except PyErr (PFloat × ℤ)
  | [], ws, ts, _ => .ok (ws, ts)
  | day :: rest, ws, ts, c =>
    if 7 ≤ c then .ok (ws, ts)
    else
      match pyGet day (.str "sample_size") (.int 0) with
      | .error e => .error e
      | .ok ssRaw =>
        let ss := if truthy ssRaw then ssRaw else .int 0
        match pyGet day (.str "average") .none with
        | .error e => .error e
        | .ok avgRaw =>
          match truthy ss, _safe_float avgRaw with
          | false, _ => walk rest ws ts c
          | true, Option.none => walk rest ws ts c
          | true, some a =>
            match pyInt ss with
            | .error e => .error e
            | .ok n => walk rest (pfAdd ws (pfMulInt a n)) (ts + n) (c + 1)

/-- Embedding of compute_weighted_average in app.py.  The argument is the
days list, or none for a Python None argument; both None and the empty list
are falsy and give absence.  After the walk a zero total gives absence,
otherwise the weighted sum divided by the total is rounded to six decimals. -/
def compute_weighted_average (days : Option (List PyVal)) :
    Except PyErr (Option PFloat) :=
  match days with
  | Option.none => .ok Option.none
  | some l =>
    if l.isEmpty then .ok Option.none
    else
      match walk l (.finite 0) 0 0 with
      | .error e => .error e
      | .ok (ws, ts) =>
        if ts = 0 then .ok Option.none
        else
          match pfDivInt ws ts with
          | .error e => .error e
          | .ok r => .ok (some (pyRound6 r))

/-- The metric container built by get_station_detail: metric name to list of
daily samples. -/
abbrev Container := List (PyVal × List PyVal)

/-- One element of the metrics list: name from the name field, else the
metric field, else the literal unknown; series from the data_points field,
else the days field, else an empty list.  The chains use Python `or`, so a
falsy present value falls through.  Raises AttributeError when the element is
not a dictionary. -/
def deriveMetricEntry (m : PyVal) : Except PyErr (PyVal × PyVal) :=
  match pyGet m (.str "name") .none with
  | .error e => .error e
  | .ok n1 =>
    match pyGet m (.str "metric") .none with
    | .error e => .error e
    | .ok n2 =>
      let name := if truthy n1 then n1 else if truthy n2 then n2 else .str "unknown"
      match pyGet m (.str "data_points") .none with
      | .error e => .error e
      | .ok p1 =>
        match pyGet m (.str "days") .none with
        | .error e => .error e
        | .ok p2 =>
          let points := if truthy p1 then p1 else if truthy p2 then p2 else .list []
          .ok (name, points)

/-- One step of the metrics branch: a metrics element contributes its derived
name and series, recorded only when the series is a list. -/
def metricsStep (acc : Container) (m : PyVal) : Except PyErr Container :=
  match deriveMetricEntry m with
  | .error e => .error e
  | .ok np =>
    match np.2 with
    | .list xs => setItem acc np.1 xs
    | _ => .ok acc

/-- The branch of get_station_detail taken when the metrics key holds a
list. -/
def metricsBranch (ms : List PyVal) : Except PyErr Container :=
  ms.foldlM metricsStep []

/-- The first recording rule of the fallback scan: a non-empty list value
whose first element is a dictionary with an average or sample_size key, or
both min and max, is recorded as a series under the scanned key. -/
def scanFirst (acc : Container) (kv : PyVal × PyVal) : Except PyErr Container :=
  match kv.2 with
  | .list (s :: xs) =>
    match s with
    | .dict skvs =>
      if containsKey skvs (.str "average") || containsKey skvs (.str "sample_size")
          || (containsKey skvs (.str "min") && containsKey skvs (.str "max")) then
        setItem acc kv.1 (s :: xs)
      else .ok acc
    | _ => .ok acc
  | _ => .ok acc

/-- The nested series read from a dictionary value by the scan: the
data_points value when truthy, else the days value, with missing fields read
as None; the Python expression d.get of data_points or d.get of days. -/
def nestedSeries (vkvs : List (PyVal × PyVal)) : PyVal :=
  let d1 := (lookupVal vkvs (.str "data_points")).getD .none
  if truthy d1 then d1 else (lookupVal vkvs (.str "days")).getD .none

/-- The second recording rule of the fallback scan: a truthy dictionary value
whose nested series is a list has that list recorded, possibly overwriting
the first rule. -/
def scanSecond (acc : Container) (kv : PyVal × PyVal) : Except PyErr Container :=
  if truthy kv.2 then
    match kv.2 with
    | .dict vkvs =>
      match nestedSeries vkvs with
      | .list nxs => setItem acc kv.1 nxs
      | _ => .ok acc
    | _ => .ok acc
  else .ok acc

/-- One step of the fallback scan of get_station_detail over a top-level
key/value pair: the first rule, then independently the second. -/
def scanStep (acc : Container) (kv : PyVal × PyVal) : Except PyErr Container :=
  match scanFirst acc kv with
  | .error e => .error e
  | .ok acc1 => scanSecond acc1 kv

/-- The metric series extraction of get_station_detail, lines 300 to 331 of
app.py: a non-dictionary payload gives an empty container; a metrics key
holding a list is consumed by the metrics branch and does not fall through;
otherwise every top-level pair is scanned. -/
def extract_metrics (data : PyVal) : Except PyErr Container :=
  match data with
  | .dict kvs =>
    match lookupVal kvs (.str "metrics") with
    | some (.list ms) => metricsBranch ms
    | _ => kvs.foldlM scanStep []
  | _ => .ok []

/-- The per-metric aggregation with its try/except: an exception raised by
compute_weighted_average is caught and degrades the result to absence. -/
def aggEntry (ds : List PyVal) : Option PFloat :=
  match compute_weighted_average (some ds) with
  | .ok v => v
  | .error _ => Option.none

/-- A weighted result as a Python value: absence is None. -/
def pyOfResult : Option PFloat → PyVal
  | Option.none => .none
  | some f => .float f

/-- One step of the weighted_map construction loop of get_station_detail. -/
def weightedStep (acc : List (PyVal × PyVal)) (kd : PyVal × List PyVal) :
    Except PyErr (List (PyVal × PyVal)) :=
  setItem acc kd.1 (pyOfResult (aggEntry kd.2))

/-- The weighted_map construction loop of get_station_detail. -/
def buildWeightedMap (mc : Container) : Except PyErr (List (PyVal × PyVal)) :=
  mc.foldlM weightedStep []

/-- The response construction of get_station_detail after the upstream fetch:
extract the series, aggregate each metric, then either inject the
weighted_average_7d key into the upstream dictionary or wrap a non-dictionary
payload in a dictionary with the keys data and weighted_average_7d. -/
def enrich_response (data : PyVal) : Except PyErr PyVal :=
  match extract_metrics data with
  | .error e => .error e
  | .ok mc =>
    match buildWeightedMap mc with
    | .error e => .error e
    | .ok wm =>
      match data with
      | .dict kvs =>
        match setItem kvs (.str "weighted_average_7d") (.dict wm) with
        | .error e => .error e
        | .ok kvs2 => .ok (.dict kvs2)
      | _ => .ok (.dict [(.str "data", data), (.str "weighted_average_7d", .dict wm)])

/-! Specification-side readings of a daily sample, used to state the claims
about the aggregator. -/

/-- The sample size of a day as the data model reads it: the integer value of
the sample_size field, zero when the field is missing, null or not an
integer. -/
def daySS (d : PyVal) : ℤ :=
  match d with
  | .dict kvs =>
    match lookupVal kvs (.str "sample_size") with
    | some (.int n) => n
    | _ => 0
  | _ => 0

/-- The parsed average of a day: _safe_float of the average field, with a
missing field read as None. -/
def dayAvg (d : PyVal) : Option PFloat :=
  match d with
  | .dict kvs => _safe_float ((lookupVal kvs (.str "average")).getD .none)
  | _ => Option.none

/-- A valid day per the specification: positive sample size and an average
that converts to a float. -/
def specValid (d : PyVal) : Bool := decide (0 < daySS d) && (dayAvg d).isSome

/-- A day of the data model of the specification: a dictionary whose
sample_size field, when present, is null or a non-negative integer count. -/
def wellFormedDay (d : PyVal) : Bool :=
  match d with
  | .dict kvs =>
    match lookupVal kvs (.str "sample_size") with
    | Option.none => true
    | some .none => true
    | some (.int n) => decide (0 ≤ n)
    | _ => false
  | _ => false

/-- The first seven valid days of a series in input order. -/
def firstValid7 (days : List PyVal) : List PyVal := (days.filter specValid).take 7

/-- One step of the specification accumulation: add average times sample size
to the weighted sum and the sample size to the total. -/
def accumDay (acc : PFloat × ℤ) (d : PyVal) : PFloat × ℤ :=
  (pfAdd acc.1 (pfMulInt ((dayAvg d).getD (.finite 0)) (daySS d)), acc.2 + daySS d)

/-- The specification accumulation over a list of days. -/
def specAccum (l : List PyVal) (init : PFloat × ℤ) : PFloat × ℤ := l.foldl accumDay init

/-- Finiteness of a Python float. -/
def finiteB : PFloat → Bool
  | .finite _ => true
  | _ => false

/-- Whether a value is a dictionary. -/
def isDictB : PyVal → Bool
  | .dict _ => true
  | _ => false

/-- The average of a day is finite whenever it converts at all. -/
def finAvgB (d : PyVal) : Bool :=
  match dayAvg d with
  | some f => finiteB f
  | Option.none => true

/-- Whether a dictionary has a metrics key holding a list, the condition for
the metrics branch of the extractor. -/
def metricsIsList (kvs : List (PyVal × PyVal)) : Bool :=
  match lookupVal kvs (.str "metrics") with
  | some (.list _) => true
  | _ => false

/-! Claim-side readings, written from the words of the claims to be compared
with the extracted behaviour. -/

/-- Modelled from the words of claim C4: derive the series from the
data_points field when the field is present, else the days field when
present, else an empty sequence; presence based, not truthiness based. -/
def seriesByPresence (kvsm : List (PyVal × PyVal)) : PyVal :=
  match lookupVal kvsm (.str "data_points") with
  | some v => v
  | Option.none =>
    match lookupVal kvsm (.str "days") with
    | some v => v
    | Option.none => .list []

/-- Modelled from the words of claim C5: a dictionary value records its
data_points value when that is a sequence, else its days value when that is a
sequence. -/
def claimNestedSeries (vkvs : List (PyVal × PyVal)) : Option (List PyVal) :=
  match lookupVal vkvs (.str "data_points") with
  | some (.list xs) => some xs
  | _ =>
    match lookupVal vkvs (.str "days") with
    | some (.list xs) => some xs
    | _ => Option.none

/-! Amended readings of the extraction rules, stating the truthiness-based
fallthrough that the code implements. -/

/-- The name derived for a metrics element: the name value when truthy, else
the metric value when truthy, else the literal unknown. -/
def deriveNameSpec (kvsm : List (PyVal × PyVal)) : PyVal :=
  let n1 := (lookupVal kvsm (.str "name")).getD .none
  if truthy n1 then n1
  else
    let n2 := (lookupVal kvsm (.str "metric")).getD .none
    if truthy n2 then n2 else .str "unknown"

/-- The series derived for a metrics element: the data_points value when
truthy, else the days value when truthy, else an empty list. -/
def deriveSeriesSpec (kvsm : List (PyVal × PyVal)) : PyVal :=
  let p1 := (lookupVal kvsm (.str "data_points")).getD .none
  if truthy p1 then p1
  else
    let p2 := (lookupVal kvsm (.str "days")).getD .none
    if truthy p2 then p2 else .list []

/-- One step of the metrics branch as a pure fold: each dictionary element
whose derived series is a list stores its derived name and series. -/
def metricsStepSpec (acc : Container) (m : PyVal) : Container :=
  match m with
  | .dict kvsm =>
    match deriveSeriesSpec kvsm with
    | .list xs => storeKV acc (deriveNameSpec kvsm) xs
    | _ => acc
  | _ => acc

/-- The container the metrics branch builds, as a pure fold. -/
def metricsSpecContainer (ms : List PyVal) : Container :=
  ms.foldl metricsStepSpec []

/-- The first recording rule of the fallback scan as a pure fold. -/
def scanFirstSpec (acc : Container) (kv : PyVal × PyVal) : Container :=
  match kv.2 with
  | .list (s :: xs) =>
    match s with
    | .dict skvs =>
      if containsKey skvs (.str "average") || containsKey skvs (.str "sample_size")
          || (containsKey skvs (.str "min") && containsKey skvs (.str "max")) then
        storeKV acc kv.1 (s :: xs)
      else acc
    | _ => acc
  | _ => acc

/-- The second recording rule of the fallback scan as a pure fold. -/
def scanSecondSpec (acc : Container) (kv : PyVal × PyVal) : Container :=
  if truthy kv.2 then
    match kv.2 with
    | .dict vkvs =>
      match nestedSeries vkvs with
      | .list nxs => storeKV acc kv.1 nxs
      | _ => acc
    | _ => acc
  else acc

/-- One step of the fallback scan as a pure fold, for hashable keys: the two
recording rules of the scan without the exception plumbing. -/
def scanSpecStep (acc : Container) (kv : PyVal × PyVal) : Container :=
  scanSecondSpec (scanFirstSpec acc kv) kv

/-- The container the fallback scan builds, as a pure fold. -/
def scanSpecContainer (kvs : List (PyVal × PyVal)) : Container :=
  kvs.foldl scanSpecStep []

/-! Helper lemmas about the aggregator loop. -/

lemma specAccum_nil (i : PFloat × ℤ) : specAccum [] i = i := rfl

lemma specAccum_cons (d : PyVal) (l : List PyVal) (i : PFloat × ℤ) :
    specAccum (d :: l) i = specAccum l (accumDay i d) := rfl

/-- The walk of compute_weighted_average over days of the data model never
raises and accumulates exactly over the valid days, capped so that at most
seven valid days are consumed. -/
lemma walk_eq_specAccum (days : List PyVal) (hWF : ∀ d ∈ days, wellFormedDay d = true)
    (ws : PFloat) (ts : ℤ) (c : ℕ) :
    walk days ws ts c = .ok (specAccum ((days.filter specValid).take (7 - c)) (ws, ts)) := by
  induction days generalizing ws ts c with
  | nil => simp [walk, specAccum]
  | cons d rest ih =>
    have hd : wellFormedDay d = true := hWF d (List.mem_cons_self d rest)
    have hrest : ∀ x ∈ rest, wellFormedDay x = true :=
      fun x hx => hWF x (List.mem_cons_of_mem d hx)
    by_cases hc : 7 ≤ c
    · have h0 : 7 - c = 0 := by omega
      simp [walk, hc, h0, specAccum]
    · cases d with
      | dict kvs =>
        cases hss : lookupVal kvs (.str "sample_size") with
        | none =>
          have hval : specValid (.dict kvs) = false := by
            simp [specValid, daySS, hss]
          have lhs : walk (PyVal.dict kvs :: rest) ws ts c = walk rest ws ts c := by
            simp [walk, hc, pyGet, hss, truthy]
          have rhs : (PyVal.dict kvs :: rest).filter specValid = rest.filter specValid := by
            simp [List.filter_cons, hval]
          rw [lhs, rhs, ih hrest]
        | some sv =>
          cases sv with
          | none =>
            have hval : specValid (.dict kvs) = false := by
              simp [specValid, daySS, hss]
            have lhs : walk (PyVal.dict kvs :: rest) ws ts c = walk rest ws ts c := by
              simp [walk, hc, pyGet, hss, truthy]
            have rhs : (PyVal.dict kvs :: rest).filter specValid = rest.filter specValid := by
              simp [List.filter_cons, hval]
            rw [lhs, rhs, ih hrest]
          | int n =>
            have hn0 : 0 ≤ n := by
              have h := hd
              simp [wellFormedDay, hss] at h
              exact h
            by_cases hn : n = 0
            · have hval : specValid (.dict kvs) = false := by
                simp [specValid, daySS, hss, hn]
              subst hn
              have lhs : walk (PyVal.dict kvs :: rest) ws ts c = walk rest ws ts c := by
                simp [walk, hc, pyGet, hss, truthy]
              have rhs : (PyVal.dict kvs :: rest).filter specValid = rest.filter specValid := by
                simp [List.filter_cons, hval]
              rw [lhs, rhs, ih hrest]
            · have htr : truthy (.int n) = true := by simp [truthy, hn]
              cases havg : _safe_float ((lookupVal kvs (.str "average")).getD .none) with
              | none =>
                have hval : specValid (.dict kvs) = false := by
                  simp [specValid, dayAvg, havg]
                have lhs : walk (PyVal.dict kvs :: rest) ws ts c = walk rest ws ts c := by
                  simp [walk, hc, pyGet, hss, htr, havg]
                have rhs : (PyVal.dict kvs :: rest).filter specValid = rest.filter specValid := by
                  simp [List.filter_cons, hval]
                rw [lhs, rhs, ih hrest]
              | some a =>
                have hval : specValid (.dict kvs) = true := by
                  simp [specValid, daySS, dayAvg, hss, havg]
                  omega
                have hsucc : 7 - c = (7 - (c + 1)) + 1 := by omega
                have hacc : accumDay (ws, ts) (.dict kvs) =
                    (pfAdd ws (pfMulInt a n), ts + n) := by
                  simp [accumDay, daySS, dayAvg, hss, havg]
                have lhs : walk (PyVal.dict kvs :: rest) ws ts c =
                    walk rest (pfAdd ws (pfMulInt a n)) (ts + n) (c + 1) := by
                  simp [walk, hc, pyGet, hss, htr, havg, pyInt]
                have rhs : (PyVal.dict kvs :: rest).filter specValid =
                    PyVal.dict kvs :: rest.filter specValid := by
                  simp [List.filter_cons, hval]
                rw [lhs, rhs, hsucc, List.take_succ_cons, specAccum_cons, hacc, ih hrest]
          | bool b => simp [wellFormedDay, hss] at hd
          | float f => simp [wellFormedDay, hss] at hd
          | str s => simp [wellFormedDay, hss] at hd
          | list xs => simp [wellFormedDay, hss] at hd
          | dict kvs2 => simp [wellFormedDay, hss] at hd
      | none => simp [wellFormedDay] at hd
      | bool b => simp [wellFormedDay] at hd
      | int n => simp [wellFormedDay] at hd
      | float f => simp [wellFormedDay] at hd
      | str s => simp [wellFormedDay] at hd
      | list xs => simp [wellFormedDay] at hd

lemma specAccum_snd (l : List PyVal) (i : PFloat × ℤ) :
    (specAccum l i).2 = i.2 + (l.map daySS).sum := by
  induction l generalizing i with
  | nil => simp [specAccum]
  | cons d rest ih =>
    rw [specAccum_cons, ih]
    simp [accumDay]
    ring

lemma mem_firstValid7 {d : PyVal} {days : List PyVal} (h : d ∈ firstValid7 days) :
    d ∈ days ∧ specValid d = true := by
  have h1 : d ∈ days.filter specValid := List.mem_of_mem_take h
  exact ⟨List.mem_of_mem_filter h1, List.of_mem_filter h1⟩

lemma firstValid7_ne_nil {days : List PyVal} (h : days.any specValid = true) :
    firstValid7 days ≠ [] := by
  rw [List.any_eq_true] at h
  obtain ⟨d, hd, hv⟩ := h
  have hmem : d ∈ days.filter specValid := List.mem_filter.mpr ⟨hd, hv⟩
  unfold firstValid7
  cases hf : days.filter specValid with
  | nil => rw [hf] at hmem; simp at hmem
  | cons x xs => simp

lemma sum_pos_of_ones (l : List ℤ) (h1 : ∀ x ∈ l, 1 ≤ x) (hne : l ≠ []) : 0 < l.sum := by
  cases l with
  | nil => exact absurd rfl hne
  | cons x xs =>
    have hx : 1 ≤ x := h1 x (by simp)
    have hxs : 0 ≤ xs.sum := List.sum_nonneg (fun y hy => by have := h1 y (by simp [hy]); omega)
    simp only [List.sum_cons]
    omega

/-- With at least one valid day the accumulated total sample count is
positive. -/
lemma totalSamples_pos {days : List PyVal} (h : days.any specValid = true) :
    0 < (specAccum (firstValid7 days) (.finite 0, 0)).2 := by
  rw [specAccum_snd]
  have h1 : ∀ x ∈ (firstValid7 days).map daySS, 1 ≤ x := by
    intro x hx
    rw [List.mem_map] at hx
    obtain ⟨d, hd, rfl⟩ := hx
    have hv := (mem_firstValid7 hd).2
    simp [specValid] at hv
    omega
  have hne : (firstValid7 days).map daySS ≠ [] := by
    intro hnil
    exact firstValid7_ne_nil h (List.map_eq_nil_iff.mp hnil)
  have := sum_pos_of_ones _ h1 hne
  omega

lemma pfDivInt_eq (f : PFloat) (n : ℤ) (h : n ≠ 0) : pfDivInt f n = .ok (pfDivIntPure f n) := by
  cases f <;> simp [pfDivInt, pfDivIntPure, h]

/-- On a series of the data model with at least one valid day,
compute_weighted_average returns the rounded quotient of the accumulated
weighted sum and the accumulated total over the first seven valid days. -/
lemma compute_some_eq (days : List PyVal) (hWF : ∀ d ∈ days, wellFormedDay d = true)
    (hv : days.any specValid = true) :
    compute_weighted_average (some days) =
      .ok (some (pyRound6 (pfDivIntPure
        (specAccum (firstValid7 days) (.finite 0, 0)).1
        (specAccum (firstValid7 days) (.finite 0, 0)).2))) := by
  have hne : days ≠ [] := by
    rw [List.any_eq_true] at hv
    obtain ⟨d, hd, _⟩ := hv
    exact List.ne_nil_of_mem hd
  have hie : days.isEmpty = false := by
    cases days with
    | nil => exact absurd rfl hne
    | cons d r => rfl
  have hts : 0 < (specAccum (firstValid7 days) (.finite 0, 0)).2 := totalSamples_pos hv
  have hwalk := walk_eq_specAccum days hWF (.finite 0) 0 0
  rcases hP : specAccum (firstValid7 days) (PFloat.finite 0, (0 : ℤ)) with ⟨ws, ts⟩
  have hwalk2 : walk days (.finite 0) 0 0 = .ok (ws, ts) := by
    rw [hwalk]
    simp only [Nat.sub_zero]
    rw [show (days.filter specValid).take 7 = firstValid7 days from rfl, hP]
  rw [hP] at hts
  have hts0 : ts ≠ 0 := by omega
  simp only [compute_weighted_average, hie, Bool.false_eq_true, if_false, hwalk2,
    if_neg hts0, pfDivInt_eq _ _ hts0, hP]

/-- On a series of the data model with no valid day, compute_weighted_average
returns absence. -/
lemma compute_some_none (days : List PyVal) (hWF : ∀ d ∈ days, wellFormedDay d = true)
    (hno : days.any specValid = false) :
    compute_weighted_average (some days) = .ok Option.none := by
  cases days with
  | nil => simp [compute_weighted_average]
  | cons d rest =>
    have hfil : (d :: rest).filter specValid = [] := by
      rw [List.filter_eq_nil_iff]
      intro a ha hva
      have h2 : (d :: rest).any specValid = true := List.any_eq_true.mpr ⟨a, ha, hva⟩
      rw [hno] at h2
      exact Bool.false_ne_true h2
    have hwalk := walk_eq_specAccum (d :: rest) hWF (.finite 0) 0 0
    rw [hfil] at hwalk
    simp only [List.take_nil, specAccum_nil] at hwalk
    simp [compute_weighted_average, hwalk]

/-- roundHalfEven rounds to a nearest integer, and an exact tie goes to the
even integer. -/
lemma roundHalfEven_near (q : ℚ) :
    |q - roundHalfEven q| ≤ 1 / 2 ∧ (|q - roundHalfEven q| = 1 / 2 → roundHalfEven q % 2 = 0) := by
  have hfl : (⌊q⌋ : ℚ) ≤ q := Int.floor_le q
  have hlt : q < ⌊q⌋ + 1 := Int.lt_floor_add_one q
  unfold roundHalfEven
  by_cases h1 : q - ⌊q⌋ < 1 / 2
  · rw [if_pos h1]
    constructor
    · rw [abs_le]
      constructor <;> linarith
    · intro habs
      rw [abs_eq (by norm_num : (0 : ℚ) ≤ 1 / 2)] at habs
      rcases habs with h | h <;> linarith
  · rw [if_neg h1]
    by_cases h2 : 1 / 2 < q - ⌊q⌋
    · rw [if_pos h2]
      constructor
      · rw [abs_le]
        constructor <;> push_cast <;> linarith
      · intro habs
        rw [abs_eq (by norm_num : (0 : ℚ) ≤ 1 / 2)] at habs
        rcases habs with h | h <;> push_cast at h <;> linarith
    · rw [if_neg h2]
      have heq : q - ⌊q⌋ = 1 / 2 := by linarith
      by_cases h3 : ⌊q⌋ % 2 = 0
      · rw [if_pos h3]
        refine ⟨by rw [abs_le]; constructor <;> linarith, fun _ => h3⟩
      · rw [if_neg h3]
        refine ⟨by rw [abs_le]; constructor <;> push_cast <;> linarith, fun _ => ?_⟩
        omega

/-- The accumulated weighted sum stays finite when every consumed average is
finite. -/
lemma specAccum_fst_finite (l : List PyVal) (i : PFloat × ℤ)
    (hfin : ∀ d ∈ l, finAvgB d = true) (hval : ∀ d ∈ l, specValid d = true)
    (hi : finiteB i.1 = true) : finiteB (specAccum l i).1 = true := by
  induction l generalizing i with
  | nil => simpa [specAccum]
  | cons d rest ih =>
    rw [specAccum_cons]
    refine ih (accumDay i d) (fun x hx => hfin x (List.mem_cons_of_mem d hx))
      (fun x hx => hval x (List.mem_cons_of_mem d hx)) ?_
    have hv := hval d (by simp)
    simp [specValid] at hv
    obtain ⟨hss, hsome⟩ := hv
    rcases ha : dayAvg d with _ | a
    · rw [ha] at hsome
      simp at hsome
    · have hf := hfin d (by simp)
      simp only [finAvgB, ha] at hf
      rcases a with q | _ | _ | _
      · rcases i with ⟨wi, ti⟩
        rcases wi with qi | _ | _ | _
        · simp [accumDay, ha, pfMulInt, pfAdd, finiteB]
        · simp [finiteB] at hi
        · simp [finiteB] at hi
        · simp [finiteB] at hi
      · simp [finiteB] at hf
      · simp [finiteB] at hf
      · simp [finiteB] at hf

/-- The spec example series: two days of five samples at averages twenty and
thirty, with a zero-sample day between them. -/
def exDaysC1 : List PyVal :=
  [.dict [(.str "average", .int 20), (.str "sample_size", .int 5)],
   .dict [(.str "average", .int 10), (.str "sample_size", .int 0)],
   .dict [(.str "average", .int 30), (.str "sample_size", .int 5)]]

/-- Claim C1: for every series of the data model in which at least one day is
valid (positive sample size, average converts to a float), the aggregator
returns the quotient of the weighted sum and the sample total taken over at
most the first seven valid days in input order, rounded to six decimals.
Days with zero sample size or an invalid average are skipped without
advancing the seven-day cap, and later valid days never contribute: the
accumulation ranges over firstValid7, the first seven entries of the
filtered series. -/
theorem aggregator_first7_weighted_formula (days : List PyVal)
    (hWF : days.all wellFormedDay = true) (hv : days.any specValid = true) :
    compute_weighted_average (some days) =
      .ok (some (pyRound6 (pfDivIntPure
        (specAccum (firstValid7 days) (.finite 0, 0)).1
        (specAccum (firstValid7 days) (.finite 0, 0)).2))) :=
  compute_some_eq days (List.all_eq_true.mp hWF) hv

/-- Witness for C1 at the spec example series. -/
theorem aggregator_first7_weighted_formula_witness :
    compute_weighted_average (some exDaysC1) =
      .ok (some (pyRound6 (pfDivIntPure
        (specAccum (firstValid7 exDaysC1) (.finite 0, 0)).1
        (specAccum (firstValid7 exDaysC1) (.finite 0, 0)).2))) :=
  aggregator_first7_weighted_formula exDaysC1 (by rfl) (by rfl)

/-- Claim C3: over the data model, the aggregator returns absence exactly when
no valid day occurs in the series; in particular an absent series, the empty
series, a series whose days all have zero sample size and a series whose
averages never convert all give absence. -/
theorem aggregator_absence_iff_no_valid_day (days : Option (List PyVal))
    (hWF : (days.getD []).all wellFormedDay = true) :
    (compute_weighted_average days = .ok Option.none) ↔
      (days.getD []).all (fun d => !specValid d) = true := by
  cases days with
  | none => simp [compute_weighted_average]
  | some l =>
    simp only [Option.getD_some] at hWF ⊢
    have hWF2 : ∀ d ∈ l, wellFormedDay d = true := List.all_eq_true.mp hWF
    constructor
    · intro h
      rw [List.all_eq_true]
      intro x hx
      by_contra hbad
      have hvx : specValid x = true := by
        cases hsv : specValid x
        · rw [hsv] at hbad
          simp at hbad
        · rfl
      have hany : l.any specValid = true := List.any_eq_true.mpr ⟨x, hx, hvx⟩
      rw [compute_some_eq l hWF2 hany] at h
      simp at h
    · intro hall
      have hno : l.any specValid = false := by
        cases hA : l.any specValid
        · rfl
        · exfalso
          rw [List.any_eq_true] at hA
          obtain ⟨x, hx, hvx⟩ := hA
          have hbx := List.all_eq_true.mp hall x hx
          rw [hvx] at hbx
          simp at hbx
      exact compute_some_none l hWF2 hno

/-- Witness for C3: a two-day series whose days have zero sample size and a
non-convertible average respectively gives absence. -/
theorem aggregator_absence_iff_no_valid_day_witness :
    compute_weighted_average (some
      [.dict [(.str "average", .int 10), (.str "sample_size", .int 0)],
       .dict [(.str "average", .none), (.str "sample_size", .int 3)]]) =
      .ok Option.none :=
  (aggregator_absence_iff_no_valid_day
    (some [.dict [(.str "average", .int 10), (.str "sample_size", .int 0)],
           .dict [(.str "average", .none), (.str "sample_size", .int 3)]])
    (by rfl)).mpr (by rfl)

/-- Claim C8 counterexample: _safe_float accepts the non-finite float inf, a
value the json deserializer of the upstream fetch can produce from an
Infinity literal, and the aggregator then returns a non-finite, non-absent
result.  This refutes the claim that every accepted average is finite and
that every non-absent result is finite. -/
theorem safe_float_accepts_infinite_counterexample :
    _safe_float (.float .inf) = some .inf ∧
    compute_weighted_average (some [.dict [(.str "average", .float .inf),
        (.str "sample_size", .int 1)]]) = .ok (some .inf) ∧
    finiteB .inf = false :=
  ⟨rfl, rfl, rfl⟩

/-- Claim C8 as amended: a day average is accepted exactly when the float
conversion succeeds, which includes the non-finite values; when every average
that converts is finite, every non-absent result is a finite value. -/
theorem aggregator_finite_closure (days : List PyVal)
    (hWF : days.all wellFormedDay = true) (hfin : days.all finAvgB = true) :
    compute_weighted_average (some days) = .ok Option.none ∨
      ∃ q : ℚ, compute_weighted_average (some days) = .ok (some (.finite q)) := by
  have hWF2 : ∀ d ∈ days, wellFormedDay d = true := List.all_eq_true.mp hWF
  cases hv : days.any specValid with
  | false => exact Or.inl (compute_some_none days hWF2 hv)
  | true =>
    right
    rw [compute_some_eq days hWF2 hv]
    have hwsfin : finiteB (specAccum (firstValid7 days) (.finite 0, 0)).1 = true := by
      apply specAccum_fst_finite
      · intro d hd
        exact List.all_eq_true.mp hfin d (mem_firstValid7 hd).1
      · intro d hd
        exact (mem_firstValid7 hd).2
      · rfl
    rcases hws : (specAccum (firstValid7 days) (.finite 0, 0)).1 with w | _ | _ | _
    · refine ⟨(roundHalfEven (w / ((specAccum (firstValid7 days) (.finite 0, 0)).2 : ℚ)
        * 1000000) : ℚ) / 1000000, ?_⟩
      simp [pfDivIntPure, pyRound6]
    · rw [hws] at hwsfin
      simp [finiteB] at hwsfin
    · rw [hws] at hwsfin
      simp [finiteB] at hwsfin
    · rw [hws] at hwsfin
      simp [finiteB] at hwsfin

/-- Witness for the amended C8 at a one-day series with a finite average. -/
theorem aggregator_finite_closure_witness :
    compute_weighted_average (some [.dict [(.str "average", .int 3),
        (.str "sample_size", .int 2)]]) = .ok Option.none ∨
      ∃ q : ℚ, compute_weighted_average (some [.dict [(.str "average", .int 3),
        (.str "sample_size", .int 2)]]) = .ok (some (.finite q)) :=
  aggregator_finite_closure
    [.dict [(.str "average", .int 3), (.str "sample_size", .int 2)]] (by rfl) (by rfl)

/-- Claim C10 counterexample: at the one-day series with average 1/128, a
value exactly representable as a binary double and deliverable by upstream as
0.0078125, and sample size one, the code rounds the exact quotient
0.0078125 to 0.007812, the even six-decimal neighbour, while rounding half
away from zero would give 0.007813.  The implemented rounding mode is
therefore not round half away from zero. -/
theorem rounding_not_half_away_counterexample :
    compute_weighted_average (some [.dict [(.str "average", .float (.finite (1 / 128))),
        (.str "sample_size", .int 1)]]) =
      .ok (some (.finite (1953 / 250000))) ∧
    ((roundHalfAway ((1 / 128 : ℚ) * 1000000) : ℚ) / 1000000 ≠ (1953 / 250000 : ℚ)) := by
  constructor
  · simp [compute_weighted_average, walk, pyGet, lookupVal, pyKeyEq, truthy, _safe_float,
      pyFloat, pyInt, pfAdd, pfMulInt, pfDivInt, pyRound6, roundHalfEven, Except.toOption]
    norm_num [Int.fract]
  · have h : roundHalfAway ((1 / 128 : ℚ) * 1000000) = 7813 := by
      rw [roundHalfAway]
      norm_num
    rw [h]
    norm_num

/-- Claim C10 as amended: each non-absent result of the aggregator over the
data model with finite averages is the exact quotient of the accumulated
weighted sum and total rounded to six decimal fractional digits with round
half to even: the result is an integer multiple of one millionth whose
numerator is within one half of the scaled exact quotient, and an exact tie
is resolved to the even numerator. -/
theorem rounding_half_even_nearest (days : List PyVal)
    (hWF : days.all wellFormedDay = true) (hv : days.any specValid = true)
    (hfin : days.all finAvgB = true) :
    ∃ w : ℚ, ∃ t n : ℤ,
      (specAccum (firstValid7 days) (.finite 0, 0)).1 = .finite w ∧
      (specAccum (firstValid7 days) (.finite 0, 0)).2 = t ∧ 0 < t ∧
      compute_weighted_average (some days) = .ok (some (.finite ((n : ℚ) / 1000000))) ∧
      |w / (t : ℚ) * 1000000 - (n : ℚ)| ≤ 1 / 2 ∧
      (|w / (t : ℚ) * 1000000 - (n : ℚ)| = 1 / 2 → n % 2 = 0) := by
  have hWF2 : ∀ d ∈ days, wellFormedDay d = true := List.all_eq_true.mp hWF
  have hcomp := compute_some_eq days hWF2 hv
  have hts := totalSamples_pos hv
  have hwsfin : finiteB (specAccum (firstValid7 days) (.finite 0, 0)).1 = true := by
    apply specAccum_fst_finite
    · intro d hd
      exact List.all_eq_true.mp hfin d (mem_firstValid7 hd).1
    · intro d hd
      exact (mem_firstValid7 hd).2
    · rfl
  rcases hws : (specAccum (firstValid7 days) (.finite 0, 0)).1 with w | _ | _ | _
  · refine ⟨w, (specAccum (firstValid7 days) (.finite 0, 0)).2,
      roundHalfEven (w / ((specAccum (firstValid7 days) (.finite 0, 0)).2 : ℚ) * 1000000),
      rfl, rfl, hts, ?_, (roundHalfEven_near _).1, (roundHalfEven_near _).2⟩
    rw [hcomp, hws]
    simp [pfDivIntPure, pyRound6]
  · rw [hws] at hwsfin
    simp [finiteB] at hwsfin
  · rw [hws] at hwsfin
    simp [finiteB] at hwsfin
  · rw [hws] at hwsfin
    simp [finiteB] at hwsfin

/-- Witness for the amended C10 at the 1/128 series. -/
theorem rounding_half_even_nearest_witness :
    ∃ w : ℚ, ∃ t n : ℤ,
      (specAccum (firstValid7 [.dict [(.str "average", .float (.finite (1 / 128))),
          (.str "sample_size", .int 1)]]) (.finite 0, 0)).1 = .finite w ∧
      (specAccum (firstValid7 [.dict [(.str "average", .float (.finite (1 / 128))),
          (.str "sample_size", .int 1)]]) (.finite 0, 0)).2 = t ∧ 0 < t ∧
      compute_weighted_average (some [.dict [(.str "average", .float (.finite (1 / 128))),
          (.str "sample_size", .int 1)]]) = .ok (some (.finite ((n : ℚ) / 1000000))) ∧
      |w / (t : ℚ) * 1000000 - (n : ℚ)| ≤ 1 / 2 ∧
      (|w / (t : ℚ) * 1000000 - (n : ℚ)| = 1 / 2 → n % 2 = 0) :=
  rounding_half_even_nearest
    [.dict [(.str "average", .float (.finite (1 / 128))), (.str "sample_size", .int 1)]]
    (by rfl) (by rfl) (by rfl)

/-! Helper lemmas about dictionaries and the extractor. -/

lemma pyKeyEq_iff {a b : PyVal} (ha : hashable a = true) :
    pyKeyEq a b = true ↔ a = b := by
  cases a <;> cases b <;> simp_all [pyKeyEq, hashable]

lemma pyKeyEq_self {a : PyVal} (ha : hashable a = true) : pyKeyEq a a = true :=
  (pyKeyEq_iff ha).mpr rfl

lemma lookupVal_none_forall {kvs : List (PyVal × PyVal)} {key : PyVal}
    (h : lookupVal kvs key = Option.none) :
    ∀ kd ∈ kvs, pyKeyEq kd.1 key = false := by
  induction kvs with
  | nil => intro kd hkd; simp at hkd
  | cons kd0 rest ih =>
    intro kd hkd
    rcases kd0 with ⟨k1, v1⟩
    rw [lookupVal] at h
    by_cases he : pyKeyEq k1 key = true
    · rw [if_pos he] at h
      exact absurd h (by simp)
    · rw [if_neg he] at h
      rw [List.mem_cons] at hkd
      rcases hkd with rfl | hkd
      · exact Bool.eq_false_iff.mpr he
      · exact ih h kd hkd

lemma storeKV_of_no_match {β : Type} (kvs : List (PyVal × β)) (k : PyVal) (v : β)
    (h : ∀ kd ∈ kvs, pyKeyEq kd.1 k = false) :
    storeKV kvs k v = kvs ++ [(k, v)] := by
  induction kvs with
  | nil => rfl
  | cons kd rest ih =>
    rcases kd with ⟨k1, v1⟩
    have h1 := h (k1, v1) (by simp)
    simp only at h1
    rw [storeKV, if_neg (by simp [h1]), ih (fun x hx => h x (by simp [hx]))]
    simp

lemma lookup_storeKV_self (kvs : List (PyVal × PyVal)) (k v : PyVal)
    (hk : hashable k = true) :
    lookupVal (storeKV kvs k v) k = some v := by
  induction kvs with
  | nil => simp [storeKV, lookupVal, pyKeyEq_self hk]
  | cons kd rest ih =>
    rcases kd with ⟨k1, v1⟩
    by_cases h : pyKeyEq k1 k = true
    · simp [storeKV, h, lookupVal]
    · simp [storeKV, h, lookupVal, ih]

lemma setItem_ok {β : Type} {kvs kvs2 : List (PyVal × β)} {k : PyVal} {v : β}
    (h : setItem kvs k v = .ok kvs2) : hashable k = true ∧ kvs2 = storeKV kvs k v := by
  unfold setItem at h
  by_cases hh : hashable k = true
  · rw [if_pos hh] at h
    refine ⟨hh, ?_⟩
    injection h with h
    exact h.symm
  · rw [if_neg hh] at h
    exact absurd h (by simp)

lemma storeKV_map_fst_sub {β : Type} (kvs : List (PyVal × β)) (k : PyVal) (v : β) :
    ∀ x ∈ (storeKV kvs k v).map Prod.fst, x ∈ kvs.map Prod.fst ∨ x = k := by
  induction kvs with
  | nil =>
    intro x hx
    simp [storeKV] at hx
    exact Or.inr hx
  | cons kd rest ih =>
    rcases kd with ⟨k1, v1⟩
    intro x hx
    by_cases h : pyKeyEq k1 k = true
    · simp only [storeKV, if_pos h, List.map_cons] at hx
      rw [List.mem_cons] at hx
      rcases hx with rfl | hx
      · exact Or.inl (by simp)
      · exact Or.inl (by simp [hx])
    · simp only [storeKV, if_neg h, List.map_cons] at hx
      rw [List.mem_cons] at hx
      rcases hx with rfl | hx
      · exact Or.inl (by simp)
      · rcases ih x hx with h2 | h2
        · exact Or.inl (by simp [h2])
        · exact Or.inr h2

/-- The invariant maintained by every container and dictionary the extractor
builds: all keys hashable and no duplicate keys. -/
def KeysOK {β : Type} (kvs : List (PyVal × β)) : Prop :=
  (∀ kd ∈ kvs, hashable kd.1 = true) ∧ (kvs.map Prod.fst).Nodup

lemma keysOK_nil {β : Type} : KeysOK ([] : List (PyVal × β)) := by
  constructor
  · intro kd hkd
    simp at hkd
  · simp

lemma storeKV_keysOK {β : Type} (kvs : List (PyVal × β)) (k : PyVal) (v : β)
    (hok : KeysOK kvs) (hk : hashable k = true) : KeysOK (storeKV kvs k v) := by
  induction kvs with
  | nil =>
    refine ⟨?_, by simp [storeKV]⟩
    intro kd hkd
    simp [storeKV] at hkd
    rw [hkd]
    exact hk
  | cons kd0 rest ih =>
    rcases kd0 with ⟨k1, v1⟩
    obtain ⟨hall, hnd⟩ := hok
    have hnd1 : k1 ∉ rest.map Prod.fst ∧ (rest.map Prod.fst).Nodup :=
      List.nodup_cons.mp (by simpa using hnd)
    by_cases h : pyKeyEq k1 k = true
    · refine ⟨?_, ?_⟩
      · intro kd hkd
        simp only [storeKV, if_pos h] at hkd
        rw [List.mem_cons] at hkd
        rcases hkd with rfl | hkd
        · exact hall (k1, v1) (List.mem_cons_self _ _)
        · exact hall kd (List.mem_cons_of_mem _ hkd)
      · simp only [storeKV, if_pos h, List.map_cons]
        simpa using hnd
    · have hrest : KeysOK (storeKV rest k v) :=
        ih ⟨fun x hx => hall x (List.mem_cons_of_mem _ hx), hnd1.2⟩
      refine ⟨?_, ?_⟩
      · intro kd hkd
        simp only [storeKV, if_neg h] at hkd
        rw [List.mem_cons] at hkd
        rcases hkd with rfl | hkd
        · exact hall (k1, v1) (List.mem_cons_self _ _)
        · exact hrest.1 kd hkd
      · simp only [storeKV, if_neg h, List.map_cons]
        rw [List.nodup_cons]
        refine ⟨?_, hrest.2⟩
        intro hmem
        rcases storeKV_map_fst_sub rest k v k1 hmem with h2 | h2
        · exact hnd1.1 h2
        · rw [h2] at h
          exact h (pyKeyEq_self hk)

lemma setItem_keysOK {β : Type} {kvs kvs2 : List (PyVal × β)} {k : PyVal} {v : β}
    (hok : KeysOK kvs) (h : setItem kvs k v = .ok kvs2) : KeysOK kvs2 := by
  obtain ⟨hk, rfl⟩ := setItem_ok h
  exact storeKV_keysOK kvs k v hok hk

lemma except_bind_ok {α β γ : Type} (a : α) (f : α → Except γ β) :
    (Except.ok a : Except γ α) >>= f = f a := rfl

lemma except_bind_error {α β γ : Type} (e : γ) (f : α → Except γ β) :
    (Except.error e : Except γ α) >>= f = .error e := rfl

lemma foldlM_keysOK (step : Container → PyVal → Except PyErr Container)
    (hstep : ∀ acc x acc2, KeysOK acc → step acc x = .ok acc2 → KeysOK acc2)
    (l : List PyVal) :
    ∀ acc res : Container, KeysOK acc → l.foldlM step acc = .ok res → KeysOK res := by
  induction l with
  | nil =>
    intro acc res hacc h
    rw [List.foldlM_nil] at h
    injection h with h
    rw [← h]
    exact hacc
  | cons x rest ih =>
    intro acc res hacc h
    rw [List.foldlM_cons] at h
    cases hx : step acc x with
    | error e =>
      rw [hx, except_bind_error] at h
      exact absurd h (by simp)
    | ok acc2 =>
      rw [hx, except_bind_ok] at h
      exact ih acc2 res (hstep acc x acc2 hacc hx) h

lemma foldlM_keysOK_kv (step : Container → (PyVal × PyVal) → Except PyErr Container)
    (hstep : ∀ acc x acc2, KeysOK acc → step acc x = .ok acc2 → KeysOK acc2)
    (l : List (PyVal × PyVal)) :
    ∀ acc res : Container, KeysOK acc → l.foldlM step acc = .ok res → KeysOK res := by
  induction l with
  | nil =>
    intro acc res hacc h
    rw [List.foldlM_nil] at h
    injection h with h
    rw [← h]
    exact hacc
  | cons x rest ih =>
    intro acc res hacc h
    rw [List.foldlM_cons] at h
    cases hx : step acc x with
    | error e =>
      rw [hx, except_bind_error] at h
      exact absurd h (by simp)
    | ok acc2 =>
      rw [hx, except_bind_ok] at h
      exact ih acc2 res (hstep acc x acc2 hacc hx) h

lemma metricsStep_keysOK {acc acc2 : Container} {m : PyVal}
    (hacc : KeysOK acc) (h : metricsStep acc m = .ok acc2) : KeysOK acc2 := by
  unfold metricsStep at h
  cases hde : deriveMetricEntry m with
  | error e =>
    rw [hde] at h
    exact absurd h (by simp)
  | ok np =>
    rw [hde] at h
    rcases np with ⟨name, pts⟩
    rcases pts with _ | b | n | f | s | xs | vkvs
    case list => exact setItem_keysOK hacc h
    all_goals (injection h with h; rw [← h]; exact hacc)

lemma scanFirst_keysOK {acc acc2 : Container} {kv : PyVal × PyVal}
    (hacc : KeysOK acc) (h : scanFirst acc kv = .ok acc2) : KeysOK acc2 := by
  unfold scanFirst at h
  rcases kv with ⟨k, v⟩
  rcases v with _ | b | n | f | s | xs | vkvs
  case list =>
    rcases xs with _ | ⟨s0, rest⟩
    · injection h with h; rw [← h]; exact hacc
    · rcases s0 with _ | b2 | n2 | f2 | s2 | xs2 | skvs
      case dict =>
        simp only at h
        by_cases hcond : (containsKey skvs (.str "average") || containsKey skvs (.str "sample_size")
            || (containsKey skvs (.str "min") && containsKey skvs (.str "max"))) = true
        · rw [if_pos hcond] at h
          exact setItem_keysOK hacc h
        · rw [if_neg hcond] at h
          injection h with h; rw [← h]; exact hacc
      all_goals (injection h with h; rw [← h]; exact hacc)
  all_goals (injection h with h; rw [← h]; exact hacc)

lemma scanSecond_keysOK {acc acc2 : Container} {kv : PyVal × PyVal}
    (hacc : KeysOK acc) (h : scanSecond acc kv = .ok acc2) : KeysOK acc2 := by
  unfold scanSecond at h
  by_cases ht : truthy kv.2 = true
  · rw [if_pos ht] at h
    rcases kv with ⟨k, v⟩
    rcases v with _ | b | n | f | s | xs | vkvs
    · injection h with h; rw [← h]; exact hacc
    · injection h with h; rw [← h]; exact hacc
    · injection h with h; rw [← h]; exact hacc
    · injection h with h; rw [← h]; exact hacc
    · injection h with h; rw [← h]; exact hacc
    · injection h with h; rw [← h]; exact hacc
    · replace h : (match nestedSeries vkvs with
        | PyVal.list nxs => setItem acc k nxs
        | _ => Except.ok acc) = .ok acc2 := h
      cases hn : nestedSeries vkvs with
      | list nxs =>
        rw [hn] at h
        exact setItem_keysOK hacc h
      | none => rw [hn] at h; injection h with h; rw [← h]; exact hacc
      | bool b2 => rw [hn] at h; injection h with h; rw [← h]; exact hacc
      | int n2 => rw [hn] at h; injection h with h; rw [← h]; exact hacc
      | float f2 => rw [hn] at h; injection h with h; rw [← h]; exact hacc
      | str s2 => rw [hn] at h; injection h with h; rw [← h]; exact hacc
      | dict kvs2 => rw [hn] at h; injection h with h; rw [← h]; exact hacc
  · rw [if_neg ht] at h
    injection h with h; rw [← h]; exact hacc

lemma scanStep_keysOK {acc acc2 : Container} {kv : PyVal × PyVal}
    (hacc : KeysOK acc) (h : scanStep acc kv = .ok acc2) : KeysOK acc2 := by
  unfold scanStep at h
  cases hf : scanFirst acc kv with
  | error e =>
    rw [hf] at h
    exact absurd h (by simp)
  | ok acc1 =>
    rw [hf] at h
    exact scanSecond_keysOK (scanFirst_keysOK hacc hf) h

/-- Every container the extractor returns has hashable, duplicate-free
keys. -/
lemma extract_keysOK {data : PyVal} {mc : Container}
    (h : extract_metrics data = .ok mc) : KeysOK mc := by
  cases data with
  | dict kvs =>
    replace h : (match lookupVal kvs (.str "metrics") with
      | some (PyVal.list ms) => metricsBranch ms
      | _ => kvs.foldlM scanStep []) = .ok mc := h
    cases hm : lookupVal kvs (.str "metrics") with
    | none =>
      rw [hm] at h
      exact foldlM_keysOK_kv scanStep (fun a x a2 ha hx => scanStep_keysOK ha hx)
        kvs [] mc keysOK_nil h
    | some mv =>
      rw [hm] at h
      cases mv with
      | list ms =>
        exact foldlM_keysOK metricsStep (fun a x a2 ha hx => metricsStep_keysOK ha hx)
          ms [] mc keysOK_nil h
      | none =>
        exact foldlM_keysOK_kv scanStep (fun a x a2 ha hx => scanStep_keysOK ha hx)
          kvs [] mc keysOK_nil h
      | bool b =>
        exact foldlM_keysOK_kv scanStep (fun a x a2 ha hx => scanStep_keysOK ha hx)
          kvs [] mc keysOK_nil h
      | int n =>
        exact foldlM_keysOK_kv scanStep (fun a x a2 ha hx => scanStep_keysOK ha hx)
          kvs [] mc keysOK_nil h
      | float f =>
        exact foldlM_keysOK_kv scanStep (fun a x a2 ha hx => scanStep_keysOK ha hx)
          kvs [] mc keysOK_nil h
      | str s =>
        exact foldlM_keysOK_kv scanStep (fun a x a2 ha hx => scanStep_keysOK ha hx)
          kvs [] mc keysOK_nil h
      | dict kvs2 =>
        exact foldlM_keysOK_kv scanStep (fun a x a2 ha hx => scanStep_keysOK ha hx)
          kvs [] mc keysOK_nil h
  | none => injection h with h; rw [← h]; exact keysOK_nil
  | bool b => injection h with h; rw [← h]; exact keysOK_nil
  | int n => injection h with h; rw [← h]; exact keysOK_nil
  | float f => injection h with h; rw [← h]; exact keysOK_nil
  | str s => injection h with h; rw [← h]; exact keysOK_nil
  | list xs => injection h with h; rw [← h]; exact keysOK_nil

lemma buildWeightedMap_eq_aux (mc : Container) :
    ∀ acc : List (PyVal × PyVal),
      (∀ kd ∈ mc, hashable kd.1 = true) →
      ((mc.map Prod.fst).Nodup) →
      (∀ kd ∈ mc, ∀ kd2 ∈ acc, pyKeyEq kd2.1 kd.1 = false) →
      mc.foldlM weightedStep acc =
        .ok (acc ++ mc.map (fun kd => (kd.1, pyOfResult (aggEntry kd.2)))) := by
  induction mc with
  | nil =>
    intro acc _ _ _
    rw [List.foldlM_nil]
    simp
    rfl
  | cons kd rest ih =>
    intro acc hall hnd hdisj
    rcases kd with ⟨k, ds⟩
    rw [List.foldlM_cons]
    have hk : hashable k = true := hall (k, ds) (by simp)
    have hnd2 := hnd
    rw [List.map_cons, List.nodup_cons] at hnd2
    have hknotin : k ∉ rest.map Prod.fst := hnd2.1
    have hset : weightedStep acc (k, ds) = .ok (acc ++ [(k, pyOfResult (aggEntry ds))]) := by
      unfold weightedStep setItem
      rw [if_pos hk, storeKV_of_no_match]
      intro kd2 hkd2
      exact hdisj (k, ds) (by simp) kd2 hkd2
    rw [hset, except_bind_ok]
    rw [ih (acc ++ [(k, pyOfResult (aggEntry ds))])
      (fun x hx => hall x (List.mem_cons_of_mem _ hx))
      hnd2.2
      ?_]
    · simp
    · intro kd hkd kd2 hkd2
      rw [List.mem_append] at hkd2
      rcases hkd2 with hkd2 | hkd2
      · exact hdisj kd (List.mem_cons_of_mem _ hkd) kd2 hkd2
      · simp at hkd2
        rw [hkd2]
        rw [Bool.eq_false_iff]
        intro htrue
        have hkk : k = kd.1 := (pyKeyEq_iff hk).mp htrue
        apply hknotin
        rw [hkk]
        exact List.mem_map_of_mem Prod.fst hkd

lemma buildWeightedMap_eq (mc : Container) (hok : KeysOK mc) :
    buildWeightedMap mc = .ok (mc.map (fun kd => (kd.1, pyOfResult (aggEntry kd.2)))) := by
  have h := buildWeightedMap_eq_aux mc [] hok.1 hok.2 (fun kd _ kd2 hkd2 => by simp at hkd2)
  simpa using h

/-- Claim C2: the extractor contract says extraction never raises on any
deserialized JSON value; but on the JSON object with a metrics key holding
the list with the single element 1 the code calls the get method of an int
and raises AttributeError, so the whole request fails instead of degrading
to an empty mapping. -/
theorem extractor_raises_on_nondict_metric_element :
    extract_metrics (.dict [(.str "metrics", .list [.int 1])]) =
      .error .attributeError := rfl

/-- The metrics element of the C4 counterexample: a present but empty
data_points list next to a non-empty days list. -/
def c4ElementKvs : List (PyVal × PyVal) :=
  [(.str "name", .str "x"), (.str "data_points", .list []),
   (.str "days", .list [.dict [(.str "average", .int 1)]])]

/-- Claim C4 counterexample: on a metrics element whose data_points field is
present but an empty sequence and whose days field is a non-empty sequence,
the claim derives the series from the present data_points field, the empty
sequence, while the code falls through the falsy empty list and records the
days list. -/
theorem metrics_rule_presence_counterexample :
    extract_metrics (.dict [(.str "metrics", .list [.dict c4ElementKvs])]) =
      .ok [(.str "x", [.dict [(.str "average", .int 1)]])] ∧
    seriesByPresence c4ElementKvs = .list [] ∧
    ([PyVal.dict [(.str "average", .int 1)]] ≠ ([] : List PyVal)) :=
  ⟨rfl, rfl, by simp⟩

/-- Claim C5 counterexample: on the object mapping pm to a dictionary whose
data_points field is present and an empty sequence, the claim records pm with
the empty series, while the code falls through the falsy empty list, finds no
days field and records nothing. -/
theorem scan_rule_empty_datapoints_counterexample :
    extract_metrics (.dict [(.str "pm", .dict [(.str "data_points", .list [])])]) =
      .ok [] ∧
    claimNestedSeries [(.str "data_points", .list [])] = some [] :=
  ⟨rfl, rfl⟩

/-- Claim C9 counterexample: an upstream object that already carries a
weighted_average_7d key has that key overwritten by the injected mapping, so
the response does not preserve every existing key. -/
theorem enrich_overwrites_weighted_key_counterexample :
    enrich_response (.dict [(.str "weighted_average_7d", .int 5)]) =
      .ok (.dict [(.str "weighted_average_7d", .dict [])]) ∧
    (PyVal.int 5 ≠ PyVal.dict []) :=
  ⟨rfl, by simp⟩

lemma enrich_eq_dict (kvs : List (PyVal × PyVal)) (mc : Container)
    (wm : List (PyVal × PyVal))
    (hmc : extract_metrics (.dict kvs) = .ok mc) (hwm : buildWeightedMap mc = .ok wm) :
    enrich_response (.dict kvs) =
      .ok (.dict (storeKV kvs (.str "weighted_average_7d") (.dict wm))) := by
  simp only [enrich_response, hmc, hwm, setItem, hashable, if_true]

lemma enrich_eq_nondict (data : PyVal) (mc : Container) (wm : List (PyVal × PyVal))
    (hd : isDictB data = false)
    (hmc : extract_metrics data = .ok mc) (hwm : buildWeightedMap mc = .ok wm) :
    enrich_response data =
      .ok (.dict [(.str "data", data), (.str "weighted_average_7d", .dict wm)]) := by
  cases data with
  | dict kvs => simp [isDictB] at hd
  | none => simp only [enrich_response, hmc, hwm]
  | bool b => simp only [enrich_response, hmc, hwm]
  | int n => simp only [enrich_response, hmc, hwm]
  | float f => simp only [enrich_response, hmc, hwm]
  | str s => simp only [enrich_response, hmc, hwm]
  | list xs => simp only [enrich_response, hmc, hwm]

/-- Claim C6: whenever the extractor completes with a container, the response
is built, carries the top-level weighted_average_7d key, the key set of the
injected mapping equals exactly the metric names the extractor identified,
and a non-dictionary upstream payload is wrapped in a dictionary with the
keys data and weighted_average_7d. -/
theorem response_weighted_key_invariant (data : PyVal) (mc : Container)
    (hmc : extract_metrics data = .ok mc) :
    ∃ wm kvs2,
      buildWeightedMap mc = .ok wm ∧
      enrich_response data = .ok (.dict kvs2) ∧
      lookupVal kvs2 (.str "weighted_average_7d") = some (.dict wm) ∧
      wm.map Prod.fst = mc.map Prod.fst ∧
      (isDictB data = false →
        kvs2 = [(.str "data", data), (.str "weighted_average_7d", .dict wm)]) := by
  have hok := extract_keysOK hmc
  have hwm := buildWeightedMap_eq mc hok
  have hkeys : (mc.map (fun kd => (kd.1, pyOfResult (aggEntry kd.2)))).map Prod.fst =
      mc.map Prod.fst := by
    rw [List.map_map]
    rfl
  cases data with
  | dict kvs =>
    refine ⟨_, storeKV kvs (.str "weighted_average_7d")
        (.dict (mc.map (fun kd => (kd.1, pyOfResult (aggEntry kd.2))))),
      hwm, enrich_eq_dict kvs mc _ hmc hwm, ?_, hkeys, ?_⟩
    · exact lookup_storeKV_self kvs _ _ rfl
    · intro hnd
      simp [isDictB] at hnd
  | none =>
    exact ⟨_, _, hwm, enrich_eq_nondict _ mc _ rfl hmc hwm, rfl, hkeys, fun _ => rfl⟩
  | bool b =>
    exact ⟨_, _, hwm, enrich_eq_nondict _ mc _ rfl hmc hwm, rfl, hkeys, fun _ => rfl⟩
  | int n =>
    exact ⟨_, _, hwm, enrich_eq_nondict _ mc _ rfl hmc hwm, rfl, hkeys, fun _ => rfl⟩
  | float f =>
    exact ⟨_, _, hwm, enrich_eq_nondict _ mc _ rfl hmc hwm, rfl, hkeys, fun _ => rfl⟩
  | str s =>
    exact ⟨_, _, hwm, enrich_eq_nondict _ mc _ rfl hmc hwm, rfl, hkeys, fun _ => rfl⟩
  | list xs =>
    exact ⟨_, _, hwm, enrich_eq_nondict _ mc _ rfl hmc hwm, rfl, hkeys, fun _ => rfl⟩

/-- Witness for C6 at a non-dictionary upstream payload. -/
theorem response_weighted_key_invariant_witness :
    ∃ wm kvs2,
      buildWeightedMap [] = .ok wm ∧
      enrich_response (.int 7) = .ok (.dict kvs2) ∧
      lookupVal kvs2 (.str "weighted_average_7d") = some (.dict wm) ∧
      wm.map Prod.fst = ([] : Container).map Prod.fst ∧
      (isDictB (.int 7) = false →
        kvs2 = [(.str "data", .int 7), (.str "weighted_average_7d", .dict wm)]) :=
  response_weighted_key_invariant (.int 7) [] rfl

/-- Claim C7: whenever the extractor completes, the response construction
itself completes; every metric of the container yields exactly one entry of
the injected mapping, computed independently from its own series through the
per-metric try/except, and a metric whose aggregation raises contributes the
entry None instead of failing the request. -/
theorem per_metric_failure_isolation (data : PyVal) (mc : Container)
    (hmc : extract_metrics data = .ok mc) :
    (∃ resp, enrich_response data = .ok resp) ∧
    buildWeightedMap mc = .ok (mc.map (fun kd => (kd.1, pyOfResult (aggEntry kd.2)))) ∧
    ∀ kd ∈ mc, ∀ e, compute_weighted_average (some kd.2) = .error e →
      (kd.1, PyVal.none) ∈ mc.map (fun kd => (kd.1, pyOfResult (aggEntry kd.2))) := by
  have hok := extract_keysOK hmc
  have hwm := buildWeightedMap_eq mc hok
  refine ⟨?_, hwm, ?_⟩
  · cases data with
    | dict kvs => exact ⟨_, enrich_eq_dict kvs mc _ hmc hwm⟩
    | none => exact ⟨_, enrich_eq_nondict _ mc _ rfl hmc hwm⟩
    | bool b => exact ⟨_, enrich_eq_nondict _ mc _ rfl hmc hwm⟩
    | int n => exact ⟨_, enrich_eq_nondict _ mc _ rfl hmc hwm⟩
    | float f => exact ⟨_, enrich_eq_nondict _ mc _ rfl hmc hwm⟩
    | str s => exact ⟨_, enrich_eq_nondict _ mc _ rfl hmc hwm⟩
    | list xs => exact ⟨_, enrich_eq_nondict _ mc _ rfl hmc hwm⟩
  · intro kd hkd e he
    have hent : pyOfResult (aggEntry kd.2) = PyVal.none := by
      unfold aggEntry
      rw [he]
      rfl
    exact List.mem_map.mpr ⟨kd, hkd, by simp [hent]⟩

/-- The C7 witness payload: two metrics, the first with a series whose day is
the integer 1 so its aggregation raises AttributeError, the second with an
empty series. -/
def c7Data : PyVal :=
  .dict [(.str "metrics", .list
    [.dict [(.str "name", .str "bad"), (.str "data_points", .list [.int 1])],
     .dict [(.str "name", .str "good"), (.str "data_points", .list [])]])]

/-- Witness for C7 at a payload one of whose metrics raises. -/
theorem per_metric_failure_isolation_witness :
    (∃ resp, enrich_response c7Data = .ok resp) ∧
    buildWeightedMap [(.str "bad", [.int 1]), (.str "good", [])] =
      .ok ([(.str "bad", [PyVal.int 1]), (PyVal.str "good", ([] : List PyVal))].map
        (fun kd => (kd.1, pyOfResult (aggEntry kd.2)))) ∧
    ∀ kd ∈ [(PyVal.str "bad", [PyVal.int 1]), (PyVal.str "good", ([] : List PyVal))],
      ∀ e, compute_weighted_average (some kd.2) = .error e →
      (kd.1, PyVal.none) ∈
        [(PyVal.str "bad", [PyVal.int 1]), (PyVal.str "good", ([] : List PyVal))].map
          (fun kd => (kd.1, pyOfResult (aggEntry kd.2))) :=
  per_metric_failure_isolation c7Data [(.str "bad", [.int 1]), (.str "good", [])] rfl

/-- Claim C9 as amended: when the upstream object does not already contain the
key weighted_average_7d, the enriched response is exactly the upstream pairs,
in order, with the single pair weighted_average_7d appended: no existing key
is overwritten or removed and no order changes. -/
theorem enrich_preserves_other_keys (kvs : List (PyVal × PyVal)) (mc : Container)
    (hmc : extract_metrics (.dict kvs) = .ok mc)
    (hfresh : containsKey kvs (.str "weighted_average_7d") = false) :
    ∃ wm, enrich_response (.dict kvs) =
      .ok (.dict (kvs ++ [(.str "weighted_average_7d", .dict wm)])) := by
  have hok := extract_keysOK hmc
  have hwm := buildWeightedMap_eq mc hok
  have hlook : lookupVal kvs (.str "weighted_average_7d") = Option.none := by
    unfold containsKey at hfresh
    cases hl : lookupVal kvs (.str "weighted_average_7d") with
    | none => rfl
    | some v =>
      rw [hl] at hfresh
      simp at hfresh
  refine ⟨mc.map (fun kd => (kd.1, pyOfResult (aggEntry kd.2))), ?_⟩
  rw [enrich_eq_dict kvs mc _ hmc hwm,
    storeKV_of_no_match _ _ _ (lookupVal_none_forall hlook)]

/-- Witness for the amended C9 at a one-key upstream object. -/
theorem enrich_preserves_other_keys_witness :
    ∃ wm, enrich_response (.dict [(.str "station", .str "A")]) =
      .ok (.dict ([(.str "station", .str "A")] ++
        [(.str "weighted_average_7d", .dict wm)])) :=
  enrich_preserves_other_keys [(.str "station", .str "A")] [] rfl rfl

lemma deriveMetricEntry_dict (kvsm : List (PyVal × PyVal)) :
    deriveMetricEntry (.dict kvsm) = .ok (deriveNameSpec kvsm, deriveSeriesSpec kvsm) := by
  simp only [deriveMetricEntry, pyGet, deriveNameSpec, deriveSeriesSpec]

lemma metricsStep_dict (acc : Container) (kvsm : List (PyVal × PyVal))
    (hh : hashable (deriveNameSpec kvsm) = true) :
    metricsStep acc (.dict kvsm) = .ok (metricsStepSpec acc (.dict kvsm)) := by
  unfold metricsStep metricsStepSpec
  rw [deriveMetricEntry_dict]
  show (match deriveSeriesSpec kvsm with
      | PyVal.list xs => setItem acc (deriveNameSpec kvsm) xs
      | _ => Except.ok acc) =
    .ok (match deriveSeriesSpec kvsm with
      | PyVal.list xs => storeKV acc (deriveNameSpec kvsm) xs
      | _ => acc)
  cases hs : deriveSeriesSpec kvsm with
  | list xs => simp [setItem, hh]
  | none => rfl
  | bool b => rfl
  | int n => rfl
  | float f => rfl
  | str s => rfl
  | dict kvs2 => rfl

lemma metricsBranch_eq_aux (ms : List PyVal) :
    ∀ acc : Container,
      (∀ m ∈ ms, isDictB m = true) →
      (∀ m ∈ ms, ∀ kvsm, m = .dict kvsm → hashable (deriveNameSpec kvsm) = true) →
      ms.foldlM metricsStep acc = .ok (ms.foldl metricsStepSpec acc) := by
  induction ms with
  | nil =>
    intro acc _ _
    rw [List.foldlM_nil, List.foldl_nil]
    rfl
  | cons m rest ih =>
    intro acc hobj hhash
    rw [List.foldlM_cons, List.foldl_cons]
    cases m with
    | dict kvsm =>
      rw [metricsStep_dict acc kvsm (hhash _ (List.mem_cons_self _ _) kvsm rfl),
        except_bind_ok]
      exact ih _ (fun x hx => hobj x (by simp [hx])) (fun x hx => hhash x (by simp [hx]))
    | none => have := hobj _ (List.mem_cons_self _ _); simp [isDictB] at this
    | bool b => have := hobj _ (List.mem_cons_self _ _); simp [isDictB] at this
    | int n => have := hobj _ (List.mem_cons_self _ _); simp [isDictB] at this
    | float f => have := hobj _ (List.mem_cons_self _ _); simp [isDictB] at this
    | str s => have := hobj _ (List.mem_cons_self _ _); simp [isDictB] at this
    | list xs => have := hobj _ (List.mem_cons_self _ _); simp [isDictB] at this

/-- Claim C4 as amended: for an object whose metrics key holds a list of
dictionaries with hashable derived names, the extractor records, for each
element, the name from its name value when truthy, else its metric value when
truthy, else the literal unknown, and the series from its data_points value
when truthy, else its days value when truthy, else an empty list, keeping the
entry only when the derived series is a list; it never falls through to the
top-level key scan, as the result depends only on the metrics list. -/
theorem metrics_rule_amended (dkvs : List (PyVal × PyVal)) (ms : List PyVal)
    (hm : lookupVal dkvs (.str "metrics") = some (.list ms))
    (hobj : ms.all isDictB = true)
    (hhash : ms.all (fun m => match m with
      | .dict kvsm => hashable (deriveNameSpec kvsm)
      | _ => true) = true) :
    extract_metrics (.dict dkvs) = .ok (metricsSpecContainer ms) := by
  have h : extract_metrics (.dict dkvs) = metricsBranch ms := by
    show (match lookupVal dkvs (.str "metrics") with
      | some (PyVal.list ms) => metricsBranch ms
      | _ => dkvs.foldlM scanStep []) = metricsBranch ms
    rw [hm]
  rw [h]
  unfold metricsBranch metricsSpecContainer
  apply metricsBranch_eq_aux
  · exact List.all_eq_true.mp hobj
  · intro m hm2 kvsm hmk
    have h2 := List.all_eq_true.mp hhash m hm2
    rw [hmk] at h2
    simpa using h2

/-- Witness for the amended C4 at a one-element metrics list. -/
theorem metrics_rule_amended_witness :
    extract_metrics (.dict [(.str "metrics", .list
      [.dict [(.str "name", .str "pm10"), (.str "data_points", .list [])]])]) =
    .ok (metricsSpecContainer
      [.dict [(.str "name", .str "pm10"), (.str "data_points", .list [])]]) :=
  metrics_rule_amended [(.str "metrics", .list
      [.dict [(.str "name", .str "pm10"), (.str "data_points", .list [])]])]
    [.dict [(.str "name", .str "pm10"), (.str "data_points", .list [])]]
    rfl rfl rfl

lemma scanFirst_eq (acc : Container) (k v : PyVal) (hk : hashable k = true) :
    scanFirst acc (k, v) = .ok (scanFirstSpec acc (k, v)) := by
  unfold scanFirst scanFirstSpec
  rcases v with _ | b | n | f | s | xs | vkvs
  · rfl
  · rfl
  · rfl
  · rfl
  · rfl
  · rcases xs with _ | ⟨s0, rest⟩
    · rfl
    · rcases s0 with _ | b2 | n2 | f2 | s2 | xs2 | skvs
      · rfl
      · rfl
      · rfl
      · rfl
      · rfl
      · rfl
      · by_cases hcond : (containsKey skvs (.str "average")
            || containsKey skvs (.str "sample_size")
            || (containsKey skvs (.str "min") && containsKey skvs (.str "max"))) = true
        · simp [hcond, setItem, hk]
        · simp [hcond]
  · rfl

lemma scanSecond_eq (acc : Container) (k v : PyVal) (hk : hashable k = true) :
    scanSecond acc (k, v) = .ok (scanSecondSpec acc (k, v)) := by
  unfold scanSecond scanSecondSpec
  by_cases ht : truthy (k, v).2 = true
  · rw [if_pos ht, if_pos ht]
    rcases v with _ | b | n | f | s | xs | vkvs
    · rfl
    · rfl
    · rfl
    · rfl
    · rfl
    · rfl
    · show (match nestedSeries vkvs with
          | PyVal.list nxs => setItem acc k nxs
          | _ => Except.ok acc) =
        .ok (match nestedSeries vkvs with
          | PyVal.list nxs => storeKV acc k nxs
          | _ => acc)
      cases hn : nestedSeries vkvs with
      | list nxs => simp [setItem, hk]
      | none => rfl
      | bool b2 => rfl
      | int n2 => rfl
      | float f2 => rfl
      | str s2 => rfl
      | dict kvs2 => rfl
  · rw [if_neg ht, if_neg ht]

lemma scanStep_eq (acc : Container) (kv : PyVal × PyVal) (hk : hashable kv.1 = true) :
    scanStep acc kv = .ok (scanSpecStep acc kv) := by
  rcases kv with ⟨k, v⟩
  unfold scanStep scanSpecStep
  rw [scanFirst_eq acc k v hk]
  exact scanSecond_eq _ k v hk

lemma scan_fold_eq (kvs : List (PyVal × PyVal)) :
    ∀ acc : Container, (∀ kv ∈ kvs, hashable kv.1 = true) →
      kvs.foldlM scanStep acc = .ok (kvs.foldl scanSpecStep acc) := by
  induction kvs with
  | nil =>
    intro acc _
    rw [List.foldlM_nil, List.foldl_nil]
    rfl
  | cons kv rest ih =>
    intro acc hall
    rw [List.foldlM_cons, List.foldl_cons, scanStep_eq acc kv (hall kv (by simp)),
      except_bind_ok]
    exact ih _ (fun x hx => hall x (by simp [hx]))

/-- Claim C5 as amended: for an object without a usable metrics key and with
hashable top-level keys, the extractor scans each top-level pair in order and
applies the two recording rules: a non-empty list value whose first element
is a dictionary containing average, or sample_size, or both min and max, is
recorded under the key; independently, a truthy dictionary value has its
data_points value when truthy, else its days value, recorded under the key
when that nested value is a list, possibly overwriting the first rule, so a
present but empty data_points list falls through to days. -/
theorem scan_rule_amended (dkvs : List (PyVal × PyVal))
    (hnm : metricsIsList dkvs = false)
    (hkeys : dkvs.all (fun kv => hashable kv.1) = true) :
    extract_metrics (.dict dkvs) = .ok (scanSpecContainer dkvs) := by
  have h : extract_metrics (.dict dkvs) = dkvs.foldlM scanStep [] := by
    show (match lookupVal dkvs (.str "metrics") with
      | some (PyVal.list ms) => metricsBranch ms
      | _ => dkvs.foldlM scanStep []) = dkvs.foldlM scanStep []
    unfold metricsIsList at hnm
    cases hm : lookupVal dkvs (.str "metrics") with
    | none => rfl
    | some mv =>
      rw [hm] at hnm
      cases mv with
      | list ms => simp at hnm
      | none => rfl
      | bool b => rfl
      | int n => rfl
      | float f => rfl
      | str s => rfl
      | dict kvs2 => rfl
  rw [h]
  exact scan_fold_eq dkvs []
    (fun x hx => by simpa using List.all_eq_true.mp hkeys x hx)

/-- Witness for the amended C5 at the spec example payload mapping pm10 to a
one-day series. -/
theorem scan_rule_amended_witness :
    extract_metrics (.dict [(.str "pm10", .list
      [.dict [(.str "average", .int 1), (.str "sample_size", .int 1)]])]) =
    .ok (scanSpecContainer [(.str "pm10", .list
      [.dict [(.str "average", .int 1), (.str "sample_size", .int 1)]])]) :=
  scan_rule_amended [(.str "pm10", .list
      [.dict [(.str "average", .int 1), (.str "sample_size", .int 1)]])]
    rfl rfl
